import Mathlib

/-!
Verification of the CSharpMarkdownExporter repository against its
natural-language specification.

The repository has two halves:
* `extension.ts` — a VS Code extension: `getGitFiles`, `findFiles`,
  `getAllOpenedTextDocuments`, `buildMarkdown`, and the `activate`
  command handler.
* `Program.cs` — a scaffolder that deletes/recreates a target directory,
  writes fixed template files and runs `npm install`, `npm run compile`
  and `vsce package` through `RunCommand` / `PackageExtension`.

Everything below is a shallow embedding of those functions: editor state
(tab groups, text documents), the file system, and external processes
are passed in explicitly; JS exceptions become `Except`; the JS string
operations used by the source (`split('\n')`, `join('\n')`, `trim`,
`toLowerCase`, `path.extname`) are modelled on `List Char` data.
-/

set_option autoImplicit false

namespace CSharpMarkdownExporter

/-- Boolean list-prefix test (model of JS `String.startsWith` at char level). -/
def prefixB : List Char → List Char → Bool
  | [], _ => true
  | _ :: _, [] => false
  | a :: t, b :: s => a = b && prefixB t s

/-- Boolean list-infix test: `t` occurs contiguously inside `s`. -/
def infixB (t : List Char) : List Char → Bool
  | [] => prefixB t []
  | c :: s => prefixB t (c :: s) || infixB t s

/-- Boolean string-prefix test on the underlying character data. -/
def strIsPre (pre s : String) : Bool := prefixB pre.data s.data

/-- Split a character sequence at every newline, the way a text is broken
into visual lines (`"" ↦ [[]]`, a trailing newline yields a trailing `[]`). -/
def linesChar : List Char → List (List Char)
  | [] => [[]]
  | c :: rest =>
    if c = '\n' then [] :: linesChar rest
    else
      match linesChar rest with
      | [] => [[c]]
      | l :: ls => (c :: l) :: ls

/-- The visual lines of a string. -/
def strLines (s : String) : List String := (linesChar s.data).map (fun l => String.mk l)

/-- Model of JS `Array.join('\n')`, used by `buildMarkdown`'s final
`lines.join('\n')`. -/
def joinLines : List String → String
  | [] => ""
  | [x] => x
  | x :: y :: xs => x ++ "\n" ++ joinLines (y :: xs)

/-- Model of JS `String.toLowerCase` (per-character lowering). -/
def toLowerStr (s : String) : String := String.mk (s.data.map Char.toLower)

/-- The extension of a path's final segment, given that segment reversed
(`rb`): everything from the last dot, or `""` when there is no dot
(`afterDot` spans all of `rb`) or the only dot leads a dotfile
(`afterDot` spans all but the leading dot); `".."` is special-cased. -/
def extFromRevSeg (rb : List Char) : String :=
  if rb = ['.', '.'] then ""
  else if (rb.takeWhile (fun c => c ≠ '.')).length = rb.length then ""
  else if (rb.takeWhile (fun c => c ≠ '.')).length + 1 = rb.length then ""
  else String.mk ('.' :: (rb.takeWhile (fun c => c ≠ '.')).reverse)

/-- Model of Node's `path.extname`: the suffix of the final path segment
from its last dot, or `""` when the segment has no dot or is a dotfile
(lone leading dot).  Paths are taken `/`-separated and without a
trailing separator. -/
def extname (p : String) : String :=
  extFromRevSeg (p.data.reverse.takeWhile (fun c => c ≠ '/'))

/-- One entry of `getAllOpenedTextDocuments`' result
(`{ filePath, language, content }` in the source). -/
structure OpenDoc where
  filePath : String
  language : String
  content : String
deriving DecidableEq, Repr

/-- The slice of a VS Code `TextDocument` the source reads: `uri`
(compared via `toString()`), `fileName`, `languageId` and `getText()`. -/
structure TextDoc where
  uri : String
  fileName : String
  languageId : String
  text : String
deriving DecidableEq, Repr

/-- The `switch (ext)` of `getAllOpenedTextDocuments` (extension.ts
lines 124-140): `path.extname(fileName).toLowerCase()` dispatched to the
three fixed labels, defaulting to `doc.languageId || ''`. -/
def languageFor (fileName languageId : String) : String :=
  let ext := toLowerStr (extname fileName)
  if ext = ".cs" then "csharp"
  else if ext = ".csproj" then "xml"
  else if ext = ".json" then "json"
  else if languageId = "" then "" else languageId

/-- Model of `tab.input` reduced to the datum the source uses: `inputAsAny?.uri`
(as a string), when present. -/
def resolveTab (docs : List TextDoc) (tab : Option String) : Option TextDoc :=
  match tab with
  | none => none
  | some uri => docs.find? (fun d => d.uri == uri)

/-- The record pushed onto `results` for a resolved document. -/
def entryOf (d : TextDoc) : OpenDoc :=
  { filePath := d.fileName
    language := languageFor d.fileName d.languageId
    content := d.text }

/-- The body of the inner `for (const tab of group.tabs)` loop:
skip tabs without a `uri`, skip unresolved documents, skip paths already
collected, otherwise push the entry. -/
def tabStep (docs : List TextDoc) (results : List OpenDoc) (tab : Option String) : List OpenDoc :=
  match tab with
  | none => results
  | some uri =>
    match docs.find? (fun d => d.uri == uri) with
    | none => results
    | some doc =>
      if results.any (fun r => r.filePath == doc.fileName) then results
      else results ++ [entryOf doc]

/-- Embedding of `getAllOpenedTextDocuments` (extension.ts lines 102-152): both nested
loops over `vscode.window.tabGroups.all`, accumulating `results`. -/
def getAllOpenedTextDocuments (groups : List (List (Option String))) (docs : List TextDoc) :
    List OpenDoc :=
  groups.foldl (fun results group => group.foldl (tabStep docs) results) []

/-- Push an entry unless its path was already collected — the
de-duplication step of `getAllOpenedTextDocuments` in isolation. -/
def pushUnique (acc : List OpenDoc) (e : OpenDoc) : List OpenDoc :=
  if acc.any (fun r => r.filePath == e.filePath) then acc else acc ++ [e]

/-- All entries the tab enumeration resolves to, in enumeration order and
before de-duplication. -/
def allEntries (groups : List (List (Option String))) (docs : List TextDoc) : List OpenDoc :=
  (groups.flatten.filterMap (resolveTab docs)).map entryOf

/-- Embedding of `getGitFiles` (extension.ts lines 75-88): the callback given to
`exec` for the `git ls-files` query.  The process outcome is passed in: `.error e` when `exec`
reported an error (non-zero exit / not a repository), `.ok stdout`
otherwise.  On success the stdout is split on newlines, each line
trimmed, empty lines dropped. -/
def getGitFiles (execResult : Except String String) : Except String (List String) :=
  match execResult with
  | .error e => .error e
  | .ok stdout =>
    .ok ((((stdout.splitOn "\n").map (fun line => line.trim)).filter
      (fun line => line.length > 0)))

/-- The warning pushed by `buildMarkdown` when no `.sln` file was found
(note the trailing newline present in the source literal). -/
def warnSln : String := "**[Warning] No .sln file found.**\n"

/-- The warning pushed when no `.csproj` file was found. -/
def warnProj : String := "**[Warning] No .csproj file found.**\n"

/-- A file system: path to file text, `none` when the file cannot be
read (missing / unreadable), in which case `fs.readFileSync` throws. -/
def FS : Type := String → Option String

/-- The body of `buildMarkdown`'s `for (const slnPath of slnFiles)` /
`for (const projPath of csprojFiles)` loops: per path a heading,
` ```xml `, the file content read with `fs.readFileSync(path, 'utf-8')`,
a closing fence and a blank line; the first failing read throws. -/
def xmlBlocks (fs : FS) : List String → Except String (List String)
  | [] => .ok []
  | p :: rest =>
    match fs p with
    | none => .error ("FileReadError: " ++ p)
    | some content =>
      (xmlBlocks fs rest).map
        (fun L => ("# " ++ p) :: "```xml" :: content :: "```" :: "" :: L)

/-- One `if (files.length === 0) ... else ...` section of `buildMarkdown`
(lines 176-200): the warning line when the list is empty, otherwise the
fenced blocks. -/
def xmlSection (fs : FS) (paths : List String) (warning : String) :
    Except String (List String) :=
  if paths.isEmpty then .ok [warning] else xmlBlocks fs paths

/-- The `lines` array built by `buildMarkdown` (extension.ts lines
161-211) before the final `join('\n')`: the Git-file-structure header and
bullets, the `.sln` section, the `.csproj` section, then one block per
open file tagged `file.language || ''`. -/
def buildMarkdownLines (fs : FS) (gitFiles slnFiles csprojFiles : List String)
    (openFiles : List OpenDoc) : Except String (List String) :=
  match xmlSection fs slnFiles warnSln with
  | .error e => .error e
  | .ok slnSec =>
    match xmlSection fs csprojFiles warnProj with
    | .error e => .error e
    | .ok projSec =>
      .ok (("# Git File Structure" :: gitFiles.map (fun f => "- " ++ f) ++ [""])
        ++ slnSec ++ projSec
        ++ openFiles.flatMap
          (fun file => ["# " ++ file.filePath, "```" ++ file.language, file.content, "```", ""]))

/-- Embedding of `buildMarkdown`: the `lines` array joined with a newline. -/
def buildMarkdown (fs : FS) (gitFiles slnFiles csprojFiles : List String)
    (openFiles : List OpenDoc) : Except String String :=
  (buildMarkdownLines fs gitFiles slnFiles csprojFiles openFiles).map joinLines

/-- Does a line of text look like a Markdown bullet `- <p>`? -/
def isBulletLine (l : String) : Bool :=
  match l.data with
  | '-' :: ' ' :: _ => true
  | _ => false

/-- What the `csharp-md-exporter.export` handler ends up doing:
either `vscode.window.showTextDocument` on the built document, or
`vscode.window.showErrorMessage` with a single message. -/
inductive ExportOutcome where
  | shownDoc (md : String)
  | shownError (msg : String)
deriving DecidableEq, Repr

/-- The command handler registered by `activate` (extension.ts lines
26-60): bail out when no workspace is open; otherwise run the pipeline
inside `try`/`catch`, any thrown error reaching the single
`showErrorMessage` in the catch block. -/
def exportCommand (workspaceFolders : List String) (gitResult : Except String String)
    (slnFiles csprojFiles : List String) (groups : List (List (Option String)))
    (docs : List TextDoc) (fs : FS) : ExportOutcome :=
  match workspaceFolders with
  | [] => .shownError "No workspace is open. Please open a folder or workspace first."
  | _ :: _ =>
    match getGitFiles gitResult with
    | .error e => .shownError ("Error: " ++ e)
    | .ok gitFiles =>
      match buildMarkdown fs gitFiles slnFiles csprojFiles
        (getAllOpenedTextDocuments groups docs) with
      | .error e => .shownError ("Error: " ++ e)
      | .ok md => .shownDoc md

/-! ### Scaffolder (Program.cs)

The scaffolder's file-system effect is modelled as a transformation of a
path-to-content map (directories carry no content of their own, so
`Directory.CreateDirectory` is invisible at this level and
`Directory.Delete(dir, true)` erases every file under `dir`; the
`Directory.Exists` guard is a no-op whenever no such file exists).
`Path.Combine` is modelled with `/`.  External commands only produce
console events here; their own file-system side effects are outside the
program's code. -/

/-- The `baseDir` constant of `Main`. -/
def baseDirName : String := "csharp-md-exporter"

/-- Model of `Path.Combine`. -/
def combine (a b : String) : String := a ++ "/" ++ b

/-- Model of `File.WriteAllText`. -/
def writeAllText (path content : String) (fs : String → Option String) :
    String → Option String :=
  fun p => if p = path then some content else fs p

/-- The `Directory.Delete(baseDir, true)` of `CreateDirectoryStructure`:
every file under the target directory is gone. -/
def deleteBaseDir (fs : String → Option String) : String → Option String :=
  fun p => if strIsPre (baseDirName ++ "/") p then none else fs p

/-- Content written by `WriteGitIgnore`. -/
def gitIgnoreContent : String := "node_modules\nout\n.vscode-test\n"

/-- Content written by `WritePackageJson`. -/
def packageJsonContent : String := joinLines [
  "\x7b",
  "  \"name\": \"csharp-md-exporter\",",
  "  \"displayName\": \"CSharp Markdown Exporter\",",
  "  \"description\": \"Export C# solution/project and opened files to Markdown for LLM use.\",",
  "  \"version\": \"0.0.1\",",
  "  \"engines\": \x7b",
  "    \"vscode\": \"^1.70.0\"",
  "  \x7d,",
  "  \"categories\": [",
  "    \"Other\"",
  "  ],",
  "  \"activationEvents\": [",
  "    \"onCommand:csharp-md-exporter.export\"",
  "  ],",
  "  \"main\": \"./out/extension.js\",",
  "  \"contributes\": \x7b",
  "    \"commands\": [",
  "      \x7b",
  "        \"command\": \"csharp-md-exporter.export\",",
  "        \"title\": \"Export C# to Markdown\"",
  "      \x7d",
  "    ]",
  "  \x7d,",
  "  \"scripts\": \x7b",
  "    \"vscode:prepublish\": \"npm run compile\",",
  "    \"compile\": \"tsc -p ./\",",
  "    \"watch\": \"tsc -watch -p ./\"",
  "  \x7d,",
  "  \"devDependencies\": \x7b",
  "    \"@types/vscode\": \"^1.70.0\",",
  "    \"@types/node\": \"16.x\",",
  "    \"typescript\": \"^4.8.0\",",
  "    \"@types/mocha\": \"^9.1.1\",",
  "    \"mocha\": \"^10.0.0\",",
  "    \"eslint\": \"^8.22.0\",",
  "    \"@typescript-eslint/parser\": \"^5.34.0\",",
  "    \"@typescript-eslint/eslint-plugin\": \"^5.34.0\"",
  "  \x7d",
  "\x7d"]

/-- Content written by `WriteTsConfigJson`. -/
def tsConfigJsonContent : String := joinLines [
  "\x7b",
  "  \"compilerOptions\": \x7b",
  "    \"module\": \"commonjs\",",
  "    \"target\": \"es2022\",",
  "    \"outDir\": \"out\",",
  "    \"lib\": [",
  "      \"ES2022\"",
  "    ],",
  "    \"sourceMap\": true,",
  "    \"rootDir\": \"src\",",
  "    \"strict\": true,",
  "    \"skipLibCheck\": true",
  "  \x7d,",
  "  \"exclude\": [",
  "    \"node_modules\",",
  "    \".vscode-test\"",
  "  ]",
  "\x7d"]

/-- Content written by `WriteExtensionTestTs`. -/
def extensionTestTsContent : String := joinLines [
  "import * as assert from \x27assert\x27;",
  "",
  "suite(\x27Extension Test Suite\x27, () => \x7b",
  "    test(\x27Sample test\x27, () => \x7b",
  "        assert.strictEqual([1,2,3].indexOf(4), -1);",
  "    \x7d);",
  "\x7d);",
  ""]

/-- Content written by `WriteLaunchJson`. -/
def launchJsonContent : String := joinLines [
  "\x7b",
  "  \"version\": \"0.2.0\",",
  "  \"configurations\": [",
  "    \x7b",
  "      \"name\": \"Launch Extension\",",
  "      \"type\": \"extensionHost\",",
  "      \"request\": \"launch\",",
  "      \"args\": [",
  "        \"--extensionDevelopmentPath=$\x7bworkspaceFolder\x7d\"",
  "      ],",
  "      \"outFiles\": [",
  "        \"$\x7bworkspaceFolder\x7d/out/**/*.js\"",
  "      ],",
  "      \"preLaunchTask\": \"npm: compile\"",
  "    \x7d,",
  "    \x7b",
  "      \"name\": \"Extension Tests\",",
  "      \"type\": \"extensionHost\",",
  "      \"request\": \"launch\",",
  "      \"args\": [",
  "        \"--extensionDevelopmentPath=$\x7bworkspaceFolder\x7d\",",
  "        \"--extensionTestsPath=$\x7bworkspaceFolder\x7d/out/test/suite\"",
  "      ],",
  "      \"outFiles\": [",
  "        \"$\x7bworkspaceFolder\x7d/out/test/**/*.js\"",
  "      ],",
  "      \"preLaunchTask\": \"npm: compile\"",
  "    \x7d",
  "  ]",
  "\x7d",
  ""]

/-- Content written by `WriteExtensionsJson`. -/
def extensionsJsonContent : String := joinLines [
  "\x7b",
  "  \"recommendations\": [",
  "  ]",
  "\x7d",
  ""]

/-- The file-system effect of `Main`'s Clean + Emit stages
(`CreateDirectoryStructure` through `WriteExtensionsJson`).  `resource`
is the embedded `CSharpMarkdownExporter.extension.ts` resource of the
executing assembly, fixed at build time; when it is missing,
`WriteExtensionTs` logs an error and writes nothing. -/
def scaffoldEmit (resource : Option String) (fs0 : String → Option String) :
    String → Option String :=
  let fs1 := deleteBaseDir fs0
  let fs2 := writeAllText (combine baseDirName ".gitignore") gitIgnoreContent fs1
  let fs3 := writeAllText (combine baseDirName "package.json") packageJsonContent fs2
  let fs4 := writeAllText (combine baseDirName "tsconfig.json") tsConfigJsonContent fs3
  let fs5 := match resource with
    | none => fs4
    | some content => writeAllText (combine baseDirName (combine "src" "extension.ts")) content fs4
  let fs6 := writeAllText
    (combine baseDirName (combine "src" (combine "test" (combine "suite" "extension.test.ts"))))
    extensionTestTsContent fs5
  let fs7 := writeAllText (combine baseDirName (combine ".vscode" "launch.json"))
    launchJsonContent fs6
  writeAllText (combine baseDirName (combine ".vscode" "extensions.json"))
    extensionsJsonContent fs7

/-- Console/process events of the scaffolder's command pipeline. -/
inductive Ev where
  | started (cmd : String) (dir : String)
  | exitError (code : Int)
  | msg (s : String)
deriving DecidableEq, Repr

/-- Embedding of `RunCommand` (Program.cs): announce and start the command, wait for
it, and log an `ERROR` line carrying the exit code when it is non-zero;
the method returns normally either way. -/
def runCommand (command workDir : String) (exitCode : String → Int) : List Ev :=
  [.started command workDir]
    ++ (if exitCode command ≠ 0 then [.exitError (exitCode command)] else [])

/-- Embedding of `PackageExtension`: skip everything when `package.json` is absent,
otherwise run the three stages unconditionally in sequence. -/
def packageExtension (packageJsonExists : Bool) (exitCode : String → Int) : List Ev :=
  if packageJsonExists = false then
    [.msg "package.json does not exist. Skipping packaging."]
  else
    runCommand "npm install" baseDirName exitCode
      ++ runCommand "npm run compile" baseDirName exitCode
      ++ runCommand "vsce package" baseDirName exitCode

/-- The external commands actually started, in order, per an event log. -/
def commandsRun (evs : List Ev) : List String :=
  evs.filterMap (fun e => match e with | .started c _ => some c | _ => none)

/-! ### Helper lemmas -/

theorem mk_data (s : String) : String.mk s.data = s := by
  cases s
  rfl

theorem str_append_assoc (a b c : String) : a ++ b ++ c = a ++ (b ++ c) := by
  apply String.ext
  simp [String.data_append, List.append_assoc]

theorem str_append_empty (a : String) : a ++ "" = a := by
  apply String.ext
  simp [String.data_append]

theorem str_empty_append (a : String) : "" ++ a = a := by
  apply String.ext
  simp [String.data_append]

theorem joinLines_cons (x : String) (L : List String) (h : L ≠ []) :
    joinLines (x :: L) = x ++ "\n" ++ joinLines L := by
  cases L with
  | nil => exact absurd rfl h
  | cons y ys => rfl

theorem linesChar_ne_nil (l : List Char) : linesChar l ≠ [] := by
  cases l with
  | nil => simp [linesChar]
  | cons c rest =>
    simp only [linesChar]
    split
    · simp
    · split <;> simp

theorem linesChar_append_newline (a b : List Char) (ha : '\n' ∉ a) :
    linesChar (a ++ '\n' :: b) = a :: linesChar b := by
  induction a with
  | nil => simp [linesChar]
  | cons c t ih =>
    have hc : c ≠ '\n' := by
      intro h
      exact ha (h ▸ List.mem_cons_self c t)
    have ht : '\n' ∉ t := fun h => ha (List.mem_cons_of_mem c h)
    rw [List.cons_append]
    show linesChar (c :: (t ++ '\n' :: b)) = _
    simp only [linesChar, if_neg hc]
    rw [ih ht]

theorem strLines_joinLines_cons (x : String) (L : List String) (hL : L ≠ [])
    (hx : '\n' ∉ x.data) : strLines (joinLines (x :: L)) = x :: strLines (joinLines L) := by
  rw [joinLines_cons x L hL]
  unfold strLines
  have hdata : (x ++ "\n" ++ joinLines L).data = x.data ++ '\n' :: (joinLines L).data := by
    simp [String.data_append]
  rw [hdata, linesChar_append_newline _ _ hx]
  simp [mk_data]

theorem strLines_joinLines_append (L1 L2 : List String) (h1 : ∀ l ∈ L1, '\n' ∉ l.data)
    (h2 : L2 ≠ []) : strLines (joinLines (L1 ++ L2)) = L1 ++ strLines (joinLines L2) := by
  induction L1 with
  | nil => simp
  | cons x t ih =>
    have hne : t ++ L2 ≠ [] := by
      intro h
      rcases List.append_eq_nil.mp h with ⟨_, h2'⟩
      exact h2 h2'
    rw [List.cons_append, strLines_joinLines_cons x (t ++ L2) hne (h1 x (List.mem_cons_self x t)),
      ih (fun l hl => h1 l (List.mem_cons_of_mem x hl))]
    rfl

theorem joinLines_infix_of_mem (L : List String) (l : String) (hl : l ∈ L) :
    ∃ a b, joinLines L = a ++ l ++ b := by
  induction L with
  | nil => cases hl
  | cons x xs ih =>
    rcases List.mem_cons.mp hl with h | h
    · subst h
      cases xs with
      | nil =>
        refine ⟨"", "", ?_⟩
        rw [str_append_empty, str_empty_append]
        rfl
      | cons y ys =>
        exact ⟨"", "\n" ++ joinLines (y :: ys), by
          rw [str_empty_append, joinLines_cons _ _ (by simp), str_append_assoc]⟩
    · rcases ih h with ⟨a, b, hab⟩
      refine ⟨x ++ "\n" ++ a, b, ?_⟩
      rw [joinLines_cons _ _ (List.ne_nil_of_mem h), hab]
      apply String.ext
      simp [String.data_append, List.append_assoc]

theorem xmlBlocks_spec (fs : FS) (paths : List String) (L : List String)
    (h : xmlBlocks fs paths = .ok L) :
    (∀ p ∈ paths, ∃ c, fs p = some c) ∧
      L = paths.flatMap
        (fun p => [("# " ++ p), "```xml", (fs p).getD "", "```", ""]) := by
  induction paths generalizing L with
  | nil =>
    simp only [xmlBlocks] at h
    cases h
    simp
  | cons p rest ih =>
    simp only [xmlBlocks] at h
    cases hp : fs p with
    | none => rw [hp] at h; cases h
    | some c =>
      rw [hp] at h
      cases hrest : xmlBlocks fs rest with
      | error e => rw [hrest] at h; cases h
      | ok L' =>
        rw [hrest] at h
        simp only [Except.map] at h
        cases h
        rcases ih L' hrest with ⟨hall, hL'⟩
        constructor
        · intro q hq
          rcases List.mem_cons.mp hq with hq | hq
          · exact ⟨c, hq ▸ hp⟩
          · exact hall q hq
        · rw [List.flatMap_cons, hp, ← hL']
          rfl

theorem xmlBlocks_error_of_none (fs : FS) (paths : List String)
    (h : ∃ p ∈ paths, fs p = none) : ∃ e, xmlBlocks fs paths = .error e := by
  induction paths with
  | nil => rcases h with ⟨p, hp, _⟩; cases hp
  | cons q rest ih =>
    rcases h with ⟨p, hp, hnone⟩
    rcases List.mem_cons.mp hp with hq | hq
    · subst hq
      exact ⟨"FileReadError: " ++ p, by simp [xmlBlocks, hnone]⟩
    · simp only [xmlBlocks]
      cases hfq : fs q with
      | none => exact ⟨"FileReadError: " ++ q, rfl⟩
      | some c =>
        rcases ih ⟨p, hq, hnone⟩ with ⟨e, he⟩
        exact ⟨e, by rw [he]; rfl⟩

theorem tabStep_eq (docs : List TextDoc) (acc : List OpenDoc) (tab : Option String) :
    tabStep docs acc tab =
      match resolveTab docs tab with
      | none => acc
      | some d => pushUnique acc (entryOf d) := by
  cases tab with
  | none => rfl
  | some uri =>
    simp only [tabStep, resolveTab]
    cases docs.find? (fun d => d.uri == uri) <;> rfl

theorem foldl_tabStep (docs : List TextDoc) (tabs : List (Option String)) (acc : List OpenDoc) :
    tabs.foldl (tabStep docs) acc =
      ((tabs.filterMap (resolveTab docs)).map entryOf).foldl pushUnique acc := by
  induction tabs generalizing acc with
  | nil => rfl
  | cons t ts ih =>
    simp only [List.foldl_cons, List.filterMap_cons]
    rw [tabStep_eq]
    cases h : resolveTab docs t with
    | none => exact ih acc
    | some d =>
      simp only [List.map_cons, List.foldl_cons]
      exact ih (pushUnique acc (entryOf d))

theorem getAllOpened_eq_dedup (groups : List (List (Option String))) (docs : List TextDoc) :
    getAllOpenedTextDocuments groups docs = (allEntries groups docs).foldl pushUnique [] := by
  unfold getAllOpenedTextDocuments allEntries
  rw [← List.foldl_flatten (tabStep docs) [] groups]
  exact foldl_tabStep docs groups.flatten []

theorem pushUnique_paths_nodup (l : List OpenDoc) :
    ∀ acc : List OpenDoc, (acc.map (fun e => e.filePath)).Nodup →
      ((l.foldl pushUnique acc).map (fun e => e.filePath)).Nodup := by
  induction l with
  | nil => intro acc h; exact h
  | cons x xs ih =>
    intro acc h
    simp only [List.foldl_cons]
    apply ih
    unfold pushUnique
    by_cases hx : acc.any (fun r => r.filePath == x.filePath) = true
    · rw [if_pos hx]; exact h
    · rw [if_neg hx]
      simp only [List.map_append, List.map_cons, List.map_nil]
      rw [List.nodup_append]
      refine ⟨h, List.nodup_singleton _, ?_⟩
      intro a ha hb
      simp only [List.mem_singleton] at hb
      rcases List.mem_map.mp ha with ⟨r, hr, hra⟩
      apply hx
      rw [List.any_eq_true]
      exact ⟨r, hr, by rw [hra, hb]; simp⟩

theorem pushUnique_mem_path (l : List OpenDoc) :
    ∀ (acc : List OpenDoc) (p : String),
      p ∈ (l.foldl pushUnique acc).map (fun e => e.filePath) ↔
        p ∈ acc.map (fun e => e.filePath) ∨ p ∈ l.map (fun e => e.filePath) := by
  induction l with
  | nil => intro acc p; simp
  | cons x xs ih =>
    intro acc p
    simp only [List.foldl_cons, List.map_cons, List.mem_cons]
    rw [ih]
    unfold pushUnique
    by_cases hx : acc.any (fun r => r.filePath == x.filePath) = true
    · rw [if_pos hx]
      rcases List.any_eq_true.mp hx with ⟨r, hr, hrx⟩
      have hrx' : r.filePath = x.filePath := by simpa using hrx
      constructor
      · rintro (h | h)
        · exact Or.inl h
        · exact Or.inr (Or.inr h)
      · rintro (h | h | h)
        · exact Or.inl h
        · exact Or.inl (by
            subst h
            rw [← hrx']
            exact List.mem_map.mpr ⟨r, hr, rfl⟩)
        · exact Or.inr h
    · rw [if_neg hx]
      simp only [List.map_append, List.map_cons, List.map_nil, List.mem_append,
        List.mem_singleton]
      tauto

theorem pushUnique_first (l : List OpenDoc) :
    ∀ (acc : List OpenDoc) (e : OpenDoc), e ∈ l.foldl pushUnique acc →
      e ∈ acc ∨ ((¬ ∃ a ∈ acc, a.filePath = e.filePath) ∧
        l.find? (fun a => a.filePath == e.filePath) = some e) := by
  induction l with
  | nil => intro acc e h; exact Or.inl h
  | cons x xs ih =>
    intro acc e h
    simp only [List.foldl_cons] at h
    unfold pushUnique at h
    by_cases hx : acc.any (fun r => r.filePath == x.filePath) = true
    · rw [if_pos hx] at h
      rcases ih acc e h with h' | ⟨hnot, hfind⟩
      · exact Or.inl h'
      · refine Or.inr ⟨hnot, ?_⟩
        rcases List.any_eq_true.mp hx with ⟨r, hr, hrx⟩
        have hrx' : r.filePath = x.filePath := by simpa using hrx
        have hne : ¬ (x.filePath == e.filePath) = true := by
          intro hcontra
          exact hnot ⟨r, hr, by rw [hrx']; simpa using hcontra⟩
        rw [List.find?_cons_of_neg (p := fun a => a.filePath == e.filePath) xs hne]
        exact hfind
    · rw [if_neg hx] at h
      rcases ih (acc ++ [x]) e h with h' | ⟨hnot, hfind⟩
      · rcases List.mem_append.mp h' with h'' | h''
        · exact Or.inl h''
        · simp only [List.mem_singleton] at h''
          subst h''
          refine Or.inr ⟨?_, ?_⟩
          · intro ⟨a, ha, hae⟩
            apply hx
            rw [List.any_eq_true]
            exact ⟨a, ha, by rw [hae]; simp⟩
          · exact List.find?_cons_of_pos (p := fun a => a.filePath == e.filePath) (a := e) xs
              (by simp)
      · refine Or.inr ⟨?_, ?_⟩
        · intro ⟨a, ha, hae⟩
          exact hnot ⟨a, List.mem_append.mpr (Or.inl ha), hae⟩
        · have hne : ¬ (x.filePath == e.filePath) = true := by
            intro hcontra
            exact hnot ⟨x, List.mem_append.mpr (Or.inr (List.mem_singleton.mpr rfl)),
              by simpa using hcontra⟩
          rw [List.find?_cons_of_neg (p := fun a => a.filePath == e.filePath) xs hne]
          exact hfind

theorem countP_path_eq_one (l : List OpenDoc) (p : String)
    (hnd : (l.map (fun e => e.filePath)).Nodup) (hmem : p ∈ l.map (fun e => e.filePath)) :
    l.countP (fun e => e.filePath == p) = 1 := by
  induction l with
  | nil => cases hmem
  | cons x xs ih =>
    simp only [List.map_cons, List.nodup_cons] at hnd
    rcases List.mem_cons.mp hmem with h | h
    · subst h
      rw [List.countP_cons]
      have hzero : xs.countP (fun e => e.filePath == x.filePath) = 0 := by
        rw [List.countP_eq_zero]
        intro a ha hcontra
        exact hnd.1 (List.mem_map.mpr ⟨a, ha, by simpa using hcontra⟩)
      simp [hzero]
    · rw [List.countP_cons, ih hnd.2 h]
      have hxp : ¬ (x.filePath == p) = true := by
        intro hcontra
        have : x.filePath = p := by simpa using hcontra
        exact hnd.1 (this ▸ h)
      simp [hxp]

theorem takeWhile_eq_self_of_all {α : Type} (p : α → Bool) (l : List α)
    (h : ∀ a ∈ l, p a = true) : l.takeWhile p = l := by
  induction l with
  | nil => rfl
  | cons x xs ih =>
    rw [List.takeWhile_cons, if_pos (h x (List.mem_cons_self x xs))]
    rw [ih (fun a ha => h a (List.mem_cons_of_mem x ha))]

/-- Evaluation of `path.extname` to the dotted extension on any path whose data splits as
`u ++ "." ++ e` with `e` a non-empty dot-free slash-free extension and
`u` a non-empty piece not ending in the separator (so the final path
segment is not a bare dotfile `.e`). -/
theorem extname_of_suffix (e : List Char) (fn : String) (u : List Char)
    (hdata : fn.data = u ++ '.' :: e) (he : e ≠ []) (hdot : '.' ∉ e) (hsl : '/' ∉ e)
    (hu : u ≠ []) (hlast : u.getLast? ≠ some '/') :
    extname fn = String.mk ('.' :: e) := by
  have hrev : fn.data.reverse = e.reverse ++ '.' :: u.reverse := by
    rw [hdata]
    simp
  obtain ⟨h, t, hu'⟩ : ∃ h t, u.reverse = h :: t := by
    cases hur : u.reverse with
    | nil => exact absurd (by simpa using hur) hu
    | cons h t => exact ⟨h, t, rfl⟩
  have hhead : h ≠ '/' := by
    intro hcontra
    apply hlast
    rw [← List.head?_reverse, hu', hcontra]
    rfl
  have hslf : e.reverse.takeWhile (fun c => c ≠ '/') = e.reverse := by
    apply takeWhile_eq_self_of_all
    intro a ha
    rw [List.mem_reverse] at ha
    have hne : a ≠ '/' := fun hc => hsl (hc ▸ ha)
    simpa using hne
  have hdotf : e.reverse.takeWhile (fun c => c ≠ '.') = e.reverse := by
    apply takeWhile_eq_self_of_all
    intro a ha
    rw [List.mem_reverse] at ha
    have hne : a ≠ '.' := fun hc => hdot (hc ▸ ha)
    simpa using hne
  have hw : u.reverse.takeWhile (fun c => c ≠ '/') =
      h :: t.takeWhile (fun c => c ≠ '/') := by
    rw [hu', List.takeWhile_cons, if_pos (by simpa using hhead)]
  have hrb : fn.data.reverse.takeWhile (fun c => c ≠ '/') =
      e.reverse ++ '.' :: (h :: t.takeWhile (fun c => c ≠ '/')) := by
    rw [hrev, List.takeWhile_append, if_pos (by rw [hslf]),
      List.takeWhile_cons, if_pos (by decide), hw]
  have hafter : (e.reverse ++ '.' :: (h :: t.takeWhile (fun c => c ≠ '/'))).takeWhile
      (fun c => c ≠ '.') = e.reverse := by
    rw [List.takeWhile_append, if_pos (by rw [hdotf]), List.takeWhile_cons]
    simp
  have helen : 1 ≤ e.length := Nat.one_le_iff_ne_zero.mpr (by
    intro hc
    exact he (List.eq_nil_of_length_eq_zero hc))
  unfold extname extFromRevSeg
  rw [hrb, hafter]
  rw [if_neg, if_neg, if_neg]
  · simp
  · simp only [List.length_reverse, List.length_append, List.length_cons]
    omega
  · simp only [List.length_reverse, List.length_append, List.length_cons]
    omega
  · intro hcontra
    have hlen2 : (e.reverse ++ '.' :: (h :: t.takeWhile (fun c => c ≠ '/'))).length = 2 := by
      rw [hcontra]
      rfl
    simp only [List.length_reverse, List.length_append, List.length_cons] at hlen2
    omega

theorem xmlSection_empty (fs : FS) (w : String) : xmlSection fs [] w = .ok [w] := rfl

theorem xmlSection_ok_ne_nil (fs : FS) (paths : List String) (w : String) (L : List String)
    (h : xmlSection fs paths w = .ok L) : L ≠ [] := by
  cases paths with
  | nil =>
    rw [xmlSection_empty] at h
    cases h
    simp
  | cons p rest =>
    unfold xmlSection at h
    simp only [List.isEmpty_cons, if_neg] at h
    rcases xmlBlocks_spec fs (p :: rest) L h with ⟨-, hL⟩
    rw [hL, List.flatMap_cons]
    simp

theorem xmlSection_error_of_none (fs : FS) (paths : List String) (w : String)
    (h : ∃ p ∈ paths, fs p = none) : ∃ e, xmlSection fs paths w = .error e := by
  rcases h with ⟨p, hp, hnone⟩
  have hne : paths ≠ [] := List.ne_nil_of_mem hp
  rcases xmlBlocks_error_of_none fs paths ⟨p, hp, hnone⟩ with ⟨e, he⟩
  refine ⟨e, ?_⟩
  unfold xmlSection
  rw [if_neg (by simpa [List.isEmpty_iff] using hne)]
  exact he

theorem buildMarkdownLines_decomp (fs : FS) (gitFiles slns projs : List String)
    (opens : List OpenDoc) (S1 S2 : List String)
    (h1 : xmlSection fs slns warnSln = .ok S1) (h2 : xmlSection fs projs warnProj = .ok S2) :
    buildMarkdownLines fs gitFiles slns projs opens =
      .ok (("# Git File Structure" :: gitFiles.map (fun f => "- " ++ f) ++ [""])
        ++ S1 ++ S2
        ++ opens.flatMap
          (fun file => ["# " ++ file.filePath, "```" ++ file.language, file.content, "```", ""])) := by
  unfold buildMarkdownLines
  rw [h1, h2]

theorem buildMarkdown_ok_elim (fs : FS) (gitFiles slns projs : List String)
    (opens : List OpenDoc) (out : String)
    (h : buildMarkdown fs gitFiles slns projs opens = .ok out) :
    ∃ L, buildMarkdownLines fs gitFiles slns projs opens = .ok L ∧ out = joinLines L := by
  unfold buildMarkdown at h
  cases hL : buildMarkdownLines fs gitFiles slns projs opens with
  | error e => rw [hL] at h; cases h
  | ok L =>
    rw [hL] at h
    simp only [Except.map] at h
    cases h
    exact ⟨L, rfl, rfl⟩

theorem buildMarkdown_error_of_none (fs : FS) (gitFiles slns projs : List String)
    (opens : List OpenDoc) (h : ∃ p ∈ slns ++ projs, fs p = none) :
    ∃ e, buildMarkdown fs gitFiles slns projs opens = .error e := by
  rcases h with ⟨p, hp, hnone⟩
  unfold buildMarkdown buildMarkdownLines
  rcases List.mem_append.mp hp with hmem | hmem
  · rcases xmlSection_error_of_none fs slns warnSln ⟨p, hmem, hnone⟩ with ⟨e, he⟩
    exact ⟨e, by rw [he]; rfl⟩
  · cases h1 : xmlSection fs slns warnSln with
    | error e => exact ⟨e, rfl⟩
    | ok S1 =>
      rcases xmlSection_error_of_none fs projs warnProj ⟨p, hmem, hnone⟩ with ⟨e, he⟩
      exact ⟨e, by rw [he]; rfl⟩

/-! ### Claims -/

/-- C1, counterexample to the claim as stated: with no tracked paths at
all (`P = []`) but one open document whose content is the line `- x`,
the output of `buildMarkdown` contains one line of the form `- <p>`
(rendered inside the open file's fenced block), not `|P| = 0` of them.
So the full output does not contain exactly `|P|` bullet lines. -/
theorem c1_bullet_lines_counterexample :
    (buildMarkdown (fun _ => none) [] [] [] [{ filePath := "d", language := "", content := "- x" }]).map
        (fun out => (strLines out).filter (fun l => isBulletLine l)) =
      .ok ["- x"] ∧
    (["- x"] : List String) ≠ ([] : List String).map (fun p => "- " ++ p) := by
  exact ⟨rfl, by decide⟩

/-- C1, amended: provided no tracked path contains a newline (as
guaranteed for `getGitFiles` output), the first `|P| + 2` lines of
`buildMarkdown`'s output are the `# Git File Structure` header, the
`|P|` bullet lines `- <p>` in the order of `P`, and a blank line; lines
rendering file contents later in the document may additionally look like
bullet lines. -/
theorem c1_bullet_lines_amended (fs : FS) (P slns projs : List String) (opens : List OpenDoc)
    (out : String) (hP : ∀ p ∈ P, '\n' ∉ p.data)
    (hok : buildMarkdown fs P slns projs opens = .ok out) :
    (strLines out).take (P.length + 2) =
      "# Git File Structure" :: (P.map (fun p => "- " ++ p) ++ [""]) := by
  rcases buildMarkdown_ok_elim fs P slns projs opens out hok with ⟨L, hL, hout⟩
  unfold buildMarkdownLines at hL
  cases h1 : xmlSection fs slns warnSln with
  | error e => rw [h1] at hL; cases hL
  | ok S1 =>
    rw [h1] at hL
    cases h2 : xmlSection fs projs warnProj with
    | error e => rw [h2] at hL; cases hL
    | ok S2 =>
      rw [h2] at hL
      cases hL
      subst hout
      have hA : ∀ l ∈ ("# Git File Structure" :: (P.map (fun p => "- " ++ p) ++ [""])),
          '\n' ∉ l.data := by
        intro l hl
        rcases List.mem_cons.mp hl with hl | hl
        · subst hl; decide
        · rcases List.mem_append.mp hl with hl | hl
          · rcases List.mem_map.mp hl with ⟨p, hp, hlp⟩
            subst hlp
            rw [String.data_append]
            intro hmem
            rcases List.mem_append.mp hmem with hmem | hmem
            · revert hmem; decide
            · exact hP p hp hmem
          · simp only [List.mem_singleton] at hl
            subst hl
            intro hmem
            cases hmem
      have hrest : S1 ++ (S2 ++ opens.flatMap
          (fun file => ["# " ++ file.filePath, "```" ++ file.language, file.content, "```", ""]))
          ≠ [] := by
        intro hc
        exact xmlSection_ok_ne_nil fs slns warnSln S1 h1 (List.append_eq_nil.mp hc).1
      rw [List.append_assoc, List.append_assoc, List.cons_append,
        strLines_joinLines_append _ _ hA hrest]
      refine List.take_left' ?_
      simp only [List.length_cons, List.length_append, List.length_map, List.length_nil]

/-- C1, witness: the amended theorem applied to one tracked path and no
other inputs. -/
theorem c1_bullet_lines_witness :
    (strLines ("# Git File Structure\n- a.cs\n\n**[Warning] No .sln file found.**\n\n"
        ++ "**[Warning] No .csproj file found.**\n")).take 3 =
      "# Git File Structure" :: (["a.cs"].map (fun p => "- " ++ p) ++ [""]) := by
  exact c1_bullet_lines_amended (fun _ => none) ["a.cs"] [] [] [] _ (by decide) rfl

/-- C2: when the solution-file sequence is empty, the `.sln` section is
exactly the warning line (so it carries no `xml`-tagged fence) and the
full output contains the exact warning literal; when it is non-empty and
the section was produced, every discovered solution file was readable
and the section is exactly the concatenation, in discovery order, of one
`xml`-tagged fenced block per solution file whose enclosed content is
the file's content on disk. -/
theorem c2_sln_section_spec (fs : FS) (gitFiles slns projs : List String)
    (opens : List OpenDoc) :
    (slns = [] →
      xmlSection fs slns warnSln = .ok [warnSln] ∧
      ("```xml" : String) ∉ [warnSln] ∧
      ∀ out, buildMarkdown fs gitFiles slns projs opens = .ok out →
        ∃ a b, out = a ++ "**[Warning] No .sln file found.**" ++ b) ∧
    (∀ L, slns ≠ [] → xmlSection fs slns warnSln = .ok L →
      (∀ p ∈ slns, ∃ c, fs p = some c) ∧
      L = slns.flatMap
        (fun p => [("# " ++ p), "```xml", (fs p).getD "", "```", ""])) := by
  constructor
  · intro hslns
    subst hslns
    refine ⟨xmlSection_empty fs warnSln, by decide, ?_⟩
    intro out hout
    rcases buildMarkdown_ok_elim fs gitFiles [] projs opens out hout with ⟨L, hL, hjoin⟩
    unfold buildMarkdownLines at hL
    rw [xmlSection_empty fs warnSln] at hL
    cases h2 : xmlSection fs projs warnProj with
    | error e => rw [h2] at hL; cases hL
    | ok S2 =>
      rw [h2] at hL
      cases hL
      have hmem : warnSln ∈ ("# Git File Structure" :: gitFiles.map (fun f => "- " ++ f) ++ [""])
          ++ [warnSln] ++ S2 ++ opens.flatMap
            (fun file => ["# " ++ file.filePath, "```" ++ file.language, file.content, "```", ""]) := by
        simp
      rcases joinLines_infix_of_mem _ warnSln hmem with ⟨a, b, hab⟩
      refine ⟨a, "\n" ++ b, ?_⟩
      rw [hjoin, hab]
      have hw : warnSln = "**[Warning] No .sln file found.**" ++ "\n" := by decide
      rw [hw]
      apply String.ext
      simp [String.data_append, List.append_assoc]
  · intro L hne hok
    unfold xmlSection at hok
    rw [if_neg (by simpa [List.isEmpty_iff] using hne)] at hok
    exact xmlBlocks_spec fs slns L hok

/-- C2, witness: one discovered solution file readable on disk; the
section is exactly its single fenced block. -/
theorem c2_sln_section_witness :
    (["# s.sln", "```xml", "<Solution/>", "```", ""] : List String) =
      ["s.sln"].flatMap
        (fun p =>
          [("# " ++ p), "```xml",
            ((fun q => if q = "s.sln" then some "<Solution/>" else none) p).getD "",
            "```", ""]) := by
  exact ((c2_sln_section_spec (fun q => if q = "s.sln" then some "<Solution/>" else none)
    [] ["s.sln"] [] []).2 ["# s.sln", "```xml", "<Solution/>", "```", ""]
    (by decide) rfl).2

/-- C3, counterexample to the claim as stated: on a path with extension
`.txt` — not one of the three fixed cases — the label is the
editor-reported content type, which can itself be `csharp`; so the
"never one of the three fixed labels" part of the claim is false. -/
theorem c3_language_label_counterexample :
    languageFor "a.txt" "csharp" = "csharp" ∧
    toLowerStr (extname "a.txt") ∉ ([".cs", ".csproj", ".json"] : List String) := by
  decide

/-- C3, amended: a path whose final segment properly ends in `.cs`
(i.e. is not the bare dotfile `.cs`, for which `path.extname` reports no
extension) is always labeled `csharp`; likewise `.csproj` → `xml` and
`.json` → `json`; for any other extension the label is the
editor-reported content type, or the empty string when that is empty —
a value that may coincide with one of the three fixed labels. -/
theorem c3_language_label_amended (fn lid : String) :
    (∀ u : List Char, fn.data = u ++ ('.' :: ['c', 's']) → u ≠ [] → u.getLast? ≠ some '/' →
      languageFor fn lid = "csharp") ∧
    (∀ u : List Char, fn.data = u ++ ('.' :: ['c', 's', 'p', 'r', 'o', 'j']) → u ≠ [] →
      u.getLast? ≠ some '/' → languageFor fn lid = "xml") ∧
    (∀ u : List Char, fn.data = u ++ ('.' :: ['j', 's', 'o', 'n']) → u ≠ [] →
      u.getLast? ≠ some '/' → languageFor fn lid = "json") ∧
    (toLowerStr (extname fn) ∉ ([".cs", ".csproj", ".json"] : List String) →
      languageFor fn lid = if lid = "" then "" else lid) := by
  refine ⟨?_, ?_, ?_, ?_⟩
  · intro u hdata hu hlast
    have hext := extname_of_suffix ['c', 's'] fn u hdata (by decide) (by decide) (by decide)
      hu hlast
    have hlow : toLowerStr (extname fn) = ".cs" := by rw [hext]; decide
    simp [languageFor, hlow]
  · intro u hdata hu hlast
    have hext := extname_of_suffix ['c', 's', 'p', 'r', 'o', 'j'] fn u hdata (by decide)
      (by decide) (by decide) hu hlast
    have hlow : toLowerStr (extname fn) = ".csproj" := by rw [hext]; decide
    simp [languageFor, hlow]
  · intro u hdata hu hlast
    have hext := extname_of_suffix ['j', 's', 'o', 'n'] fn u hdata (by decide) (by decide)
      (by decide) hu hlast
    have hlow : toLowerStr (extname fn) = ".json" := by rw [hext]; decide
    simp [languageFor, hlow]
  · intro hnot
    have h1 : toLowerStr (extname fn) ≠ ".cs" := fun hc => hnot (by rw [hc]; simp)
    have h2 : toLowerStr (extname fn) ≠ ".csproj" := fun hc => hnot (by rw [hc]; simp)
    have h3 : toLowerStr (extname fn) ≠ ".json" := fun hc => hnot (by rw [hc]; simp)
    simp [languageFor, h1, h2, h3]

/-- C3, witness: the amended mapping exercised on one concrete path per
branch. -/
theorem c3_language_label_witness :
    languageFor "a.cs" "" = "csharp" ∧ languageFor "b.csproj" "" = "xml" ∧
    languageFor "c.json" "plaintext" = "json" ∧
    languageFor "d.txt" "plaintext" = "plaintext" := by
  refine ⟨?_, ?_, ?_, ?_⟩
  · exact (c3_language_label_amended "a.cs" "").1 ['a'] (by decide) (by decide) (by decide)
  · exact (c3_language_label_amended "b.csproj" "").2.1 ['b'] (by decide) (by decide)
      (by decide)
  · exact (c3_language_label_amended "c.json" "plaintext").2.2.1 ['c'] (by decide) (by decide)
      (by decide)
  · have h := (c3_language_label_amended "d.txt" "plaintext").2.2.2 (by decide)
    simpa using h

/-- C4: for every tab enumeration, `getAllOpenedTextDocuments` returns
at most one entry per underlying file path (the returned paths are
pairwise distinct); every returned entry is the first entry, in
enumeration order, among all entries the tabs resolve to with that path
(first occurrence wins); and every path some tab resolves to yields
exactly one returned entry. -/
theorem c4_open_docs_dedup (groups : List (List (Option String))) (docs : List TextDoc) :
    ((getAllOpenedTextDocuments groups docs).map (fun e => e.filePath)).Nodup ∧
    (∀ e ∈ getAllOpenedTextDocuments groups docs,
      (allEntries groups docs).find? (fun a => a.filePath == e.filePath) = some e) ∧
    (∀ a ∈ allEntries groups docs,
      (getAllOpenedTextDocuments groups docs).countP
        (fun e => e.filePath == a.filePath) = 1) := by
  have heq := getAllOpened_eq_dedup groups docs
  refine ⟨?_, ?_, ?_⟩
  · rw [heq]
    exact pushUnique_paths_nodup _ [] (by simp)
  · intro e he
    rw [heq] at he
    rcases pushUnique_first _ [] e he with h | ⟨-, hfind⟩
    · cases h
    · exact hfind
  · intro a ha
    apply countP_path_eq_one
    · rw [heq]
      exact pushUnique_paths_nodup _ [] (by simp)
    · rw [heq, pushUnique_mem_path]
      exact Or.inr (List.mem_map.mpr ⟨a, ha, rfl⟩)

/-- C4, witness: two tabs whose documents share the file name `a.cs`
collapse to a single returned entry. -/
theorem c4_open_docs_dedup_witness :
    (getAllOpenedTextDocuments [[some "u1", some "u2"]]
        [{ uri := "u1", fileName := "a.cs", languageId := "csharp", text := "one" },
         { uri := "u2", fileName := "a.cs", languageId := "csharp", text := "two" }]).countP
      (fun e => e.filePath == "a.cs") = 1 := by
  have h := (c4_open_docs_dedup [[some "u1", some "u2"]]
    [{ uri := "u1", fileName := "a.cs", languageId := "csharp", text := "one" },
     { uri := "u2", fileName := "a.cs", languageId := "csharp", text := "two" }]).2.2
    (entryOf { uri := "u1", fileName := "a.cs", languageId := "csharp", text := "one" })
    (by decide)
  exact h

/-- C5: when any discovered solution or project file cannot be read,
the export command surfaces a single error message and never shows a
document — no partial Markdown output escapes. -/
theorem c5_read_failure_aborts (ws : List String) (git : Except String String)
    (slns projs : List String) (groups : List (List (Option String))) (docs : List TextDoc)
    (fs : FS) (hws : ws ≠ []) (hfail : ∃ p ∈ slns ++ projs, fs p = none) :
    (∃ msg, exportCommand ws git slns projs groups docs fs = .shownError msg) ∧
    ∀ md, exportCommand ws git slns projs groups docs fs ≠ .shownDoc md := by
  have hout : ∃ msg, exportCommand ws git slns projs groups docs fs = .shownError msg := by
    cases ws with
    | nil => exact absurd rfl hws
    | cons w ws' =>
      cases hg : getGitFiles git with
      | error e =>
        exact ⟨"Error: " ++ e, by simp only [exportCommand, hg]⟩
      | ok gitFiles =>
        rcases buildMarkdown_error_of_none fs gitFiles slns projs
          (getAllOpenedTextDocuments groups docs) hfail with ⟨e, he⟩
        exact ⟨"Error: " ++ e, by simp only [exportCommand, hg, he]⟩
  refine ⟨hout, ?_⟩
  intro md hmd
  rcases hout with ⟨msg, hmsg⟩
  rw [hmd] at hmsg
  cases hmsg

/-- C5, witness: a single unreadable solution file aborts the export
with an error outcome. -/
theorem c5_read_failure_witness :
    (∃ msg, exportCommand ["w"] (.ok "") ["s.sln"] [] [] [] (fun _ => none)
        = .shownError msg) ∧
    ∀ md, exportCommand ["w"] (.ok "") ["s.sln"] [] [] [] (fun _ => none) ≠ .shownDoc md := by
  exact c5_read_failure_aborts ["w"] (.ok "") ["s.sln"] [] [] [] (fun _ => none)
    (by decide) ⟨"s.sln", by decide, rfl⟩

/-- C6: `getGitFiles` fails exactly when the underlying process query
failed, propagating its error unchanged; on success the result is the
stdout split into lines with each element a trimmed original line,
nonempty, in preserved order (a sublist of the trimmed line sequence),
and with no further filtering: every nonempty trimmed line is kept with
its multiplicity. -/
theorem c6_git_files_spec (r : Except String String) :
    (∀ e, getGitFiles r = .error e ↔ r = .error e) ∧
    (∀ s, r = .ok s → ∃ l, getGitFiles r = .ok l ∧
      l.Sublist ((s.splitOn "\n").map (fun line => line.trim)) ∧
      (∀ x ∈ l, x.length > 0 ∧ ∃ line ∈ s.splitOn "\n", x = line.trim) ∧
      (∀ x : String, x.length > 0 →
        l.count x = ((s.splitOn "\n").map (fun line => line.trim)).count x)) := by
  constructor
  · intro e
    cases r with
    | error e' => simp [getGitFiles]
    | ok s => simp [getGitFiles]
  · intro s hr
    subst hr
    refine ⟨_, rfl, List.filter_sublist _, ?_, ?_⟩
    · intro x hx
      rw [List.mem_filter] at hx
      refine ⟨by simpa using hx.2, ?_⟩
      rcases List.mem_map.mp hx.1 with ⟨line, hline, hlx⟩
      exact ⟨line, hline, hlx.symm⟩
    · intro x hx
      exact List.count_filter (by simpa using hx)

/-- C6, witness: the error branch propagates the process failure, and a
sample stdout is split, trimmed, filtered and order-preserved. -/
theorem c6_git_files_witness :
    (getGitFiles (.error "fatal: not a git repository") =
        .error "fatal: not a git repository") ∧
    (∃ l, getGitFiles (.ok " a.cs \n\nb.csproj") = .ok l ∧
      l.Sublist (((" a.cs \n\nb.csproj" : String).splitOn "\n").map (fun line => line.trim)) ∧
      (∀ x ∈ l, x.length > 0 ∧
        ∃ line ∈ (" a.cs \n\nb.csproj" : String).splitOn "\n", x = line.trim) ∧
      (∀ x : String, x.length > 0 →
        l.count x =
          (((" a.cs \n\nb.csproj" : String).splitOn "\n").map
            (fun line => line.trim)).count x)) := by
  constructor
  · exact (c6_git_files_spec (.error "fatal: not a git repository")).1
      "fatal: not a git repository" |>.mpr rfl
  · exact (c6_git_files_spec (.ok " a.cs \n\nb.csproj")).2 " a.cs \n\nb.csproj" rfl

/-- C7: the concrete scenario from the specification — two tracked
paths, no solution or project files, one open C# document — yields an
output that begins with the header and bullet lines, contains both
warnings, and contains the open document's fenced block. -/
theorem c7_concrete_scenario :
    (buildMarkdown (fun _ => none) ["a.cs", "b.csproj"] [] []
        [{ filePath := "a.cs", language := "csharp", content := "x" }]).map
      (fun out =>
        prefixB "# Git File Structure\n- a.cs\n- b.csproj\n\n".data out.data &&
        infixB "**[Warning] No .sln file found.**".data out.data &&
        infixB "**[Warning] No .csproj file found.**".data out.data &&
        infixB "# a.cs\n```csharp\nx\n```\n".data out.data) = .ok true := by
  rfl

/-- C8: with `package.json` present, whatever exit codes the external
commands return, the scaffolder starts exactly the three stages
`npm install`, `npm run compile`, `vsce package` in order, each once (no
retry, no early stop), and every stage that exits non-zero leaves an
`ERROR` log entry carrying its exit code. -/
theorem c8_nonzero_exit_nonfatal (k : String → Int) :
    commandsRun (packageExtension true k) =
      ["npm install", "npm run compile", "vsce package"] ∧
    ∀ c ∈ (["npm install", "npm run compile", "vsce package"] : List String),
      k c ≠ 0 → Ev.exitError (k c) ∈ packageExtension true k := by
  constructor
  · simp only [packageExtension, runCommand, commandsRun, if_neg (by decide : ¬true = false),
      List.filterMap_append]
    by_cases h1 : k "npm install" ≠ 0 <;> by_cases h2 : k "npm run compile" ≠ 0 <;>
      by_cases h3 : k "vsce package" ≠ 0 <;> simp [h1, h2, h3, List.filterMap]
  · intro c hc hne
    simp only [packageExtension, runCommand, if_neg (by decide : ¬true = false),
      List.mem_append]
    rcases List.mem_cons.mp hc with hc | hc
    · subst hc
      left; left; right
      simp [if_pos hne]
    rcases List.mem_cons.mp hc with hc | hc
    · subst hc
      left; right
      simp [if_pos hne]
    rcases List.mem_cons.mp hc with hc | hc
    · subst hc
      right
      simp [if_pos hne]
    · cases hc

/-- C8, witness: every command failing with exit code 1 — all three
stages still run and the failure is logged. -/
theorem c8_nonzero_exit_witness :
    commandsRun (packageExtension true (fun _ => (1 : Int))) =
      ["npm install", "npm run compile", "vsce package"] ∧
    Ev.exitError 1 ∈ packageExtension true (fun _ => (1 : Int)) := by
  refine ⟨(c8_nonzero_exit_nonfatal (fun _ => (1 : Int))).1, ?_⟩
  have h := (c8_nonzero_exit_nonfatal (fun _ => (1 : Int))).2 "npm install" (by decide)
    (by decide)
  exact h

/-- C9: the generated tree under the target directory after a scaffold
run depends only on the embedded resource, not on the prior state of the
file system — the Clean stage wipes the target first and every template
is a fixed constant — so two runs against the same target produce
byte-identical generated files. -/
theorem c9_scaffold_idempotent (resource : Option String) (f g : String → Option String)
    (p : String) (hp : strIsPre (baseDirName ++ "/") p = true) :
    scaffoldEmit resource f p = scaffoldEmit resource g p := by
  cases resource with
  | none =>
    simp only [scaffoldEmit, writeAllText, deleteBaseDir, hp]
    split_ifs <;> rfl
  | some c =>
    simp only [scaffoldEmit, writeAllText, deleteBaseDir, hp]
    split_ifs <;> rfl

/-- C9, witness: the generated `package.json` is identical whether the
previous file system was empty or full of junk. -/
theorem c9_scaffold_witness :
    scaffoldEmit (some "ts source") (fun _ => none) "csharp-md-exporter/package.json" =
      scaffoldEmit (some "ts source") (fun _ => some "junk") "csharp-md-exporter/package.json" := by
  exact c9_scaffold_idempotent (some "ts source") (fun _ => none) (fun _ => some "junk")
    "csharp-md-exporter/package.json" (by decide)

/-- C10: when `package.json` is missing from the target directory,
`PackageExtension` only logs the skip message and starts none of the
three external commands. -/
theorem c10_missing_package_json_guard (k : String → Int) :
    packageExtension false k = [.msg "package.json does not exist. Skipping packaging."] ∧
    commandsRun (packageExtension false k) = [] := by
  exact ⟨rfl, rfl⟩

end CSharpMarkdownExporter
